import Mathlib

/-!
Verification of the Tool Routing & Confirmation Policy Engine of the
conversational AWS operations assistant.

The policy core of this repository is encoded as natural-language directives
in `src/prompts/cloud_engineer/system_prompt.py` (the `SYSTEM_PROMPT_TEMPLATE`
string) together with thin Python glue in `src/app.py`,
`src/runtime/request_validator.py` and `src/utils/aws_helpers.py`.

The definitions below are a shallow embedding of that policy and glue code:

* the tool-selection matrix and section workflows of the prompt become a
  total routing function over an enumerated operation-class type;
* the deletion / bulk-deletion / critical two-stage confirmation protocols
  become explicit token constructors and step functions of a small gate
  state machine;
* the region-resolution protocol of the prompt and `get_aws_region` of
  `src/utils/aws_helpers.py` become explicit resolution functions;
* `retry_operation`, `deduplicate_content` and
  `display_message_with_images` of `src/app.py`, and `validate_request`
  of `src/runtime/request_validator.py`, are translated function by
  function (strings are modelled as `List Char`; the MD5 fingerprint used
  by `deduplicate_content` is modelled as comparison of the fingerprinted
  texts themselves, i.e. the hash is assumed collision-free).
-/

/-! ## Operation classes and tool routing

Embedded from `SYSTEM_PROMPT_TEMPLATE` (ABSOLUTE TOOL SELECTION, the
CREATE/UPDATE/STATE CHANGE/DELETE/DIAGRAM section workflows, and the
EXPLICIT TOOL SELECTION MATRIX). -/

/-- The enumerated operation classes of the policy engine. -/
inductive OperationClass where
  | READ
  | MUTATE_CREATE
  | MUTATE_UPDATE
  | MUTATE_DELETE
  | STATE_CHANGE_LOW
  | STATE_CHANGE_MEDIUM
  | STATE_CHANGE_HIGH
  | COST_QUERY
  | DOC_QUERY
  | DIAGRAM_DESIGN
  | DIAGRAM_ANALYSIS
deriving DecidableEq, Repr

/-- The backing capabilities named by the prompt: the read-only `use_aws`
CLI capability, the CloudFormation MCP mutation engine
(`create_resource`/`update_resource`/`delete_resource`), the cost-analysis
engine, the documentation-search capability and the diagram renderer. -/
inductive CapabilityId where
  | use_aws
  | cloudFormationMCP
  | costAnalysisEngine
  | documentationSearch
  | awsDiagramMCP
deriving DecidableEq, Repr

open OperationClass CapabilityId

/-- The tool-routing map of the prompt:
reads and recoverable state changes go through `use_aws`
(READ OPERATIONS: use_aws ONLY; LOW/MEDIUM risk state changes:
"Execute using use_aws tool"), every mutation including the
delete-equivalent HIGH-risk state change goes through the CloudFormation
MCP engine ("MUTATION OPERATIONS: CloudFormation MCP ONLY",
"Use delete_resource tool, NEVER use_aws"), cost queries go to the
cost-analysis engine, documentation queries to documentation search and
diagram requests to `aws_diagram_mcp`. -/
def route : OperationClass → CapabilityId
  | READ => use_aws
  | MUTATE_CREATE => cloudFormationMCP
  | MUTATE_UPDATE => cloudFormationMCP
  | MUTATE_DELETE => cloudFormationMCP
  | STATE_CHANGE_LOW => use_aws
  | STATE_CHANGE_MEDIUM => use_aws
  | STATE_CHANGE_HIGH => cloudFormationMCP
  | COST_QUERY => costAnalysisEngine
  | DOC_QUERY => documentationSearch
  | DIAGRAM_DESIGN => awsDiagramMCP
  | DIAGRAM_ANALYSIS => awsDiagramMCP

/-- The classes the prompt binds to the CloudFormation MCP mutation engine:
all `create`/`update`/`delete` mutations and the delete-equivalent
`terminate` state change. -/
def boundToMutationEngine (c : OperationClass) : Prop :=
  c = MUTATE_CREATE ∨ c = MUTATE_UPDATE ∨ c = MUTATE_DELETE ∨ c = STATE_CHANGE_HIGH

instance (c : OperationClass) : Decidable (boundToMutationEngine c) := by
  unfold boundToMutationEngine; infer_instance

/-- The classes the prompt binds to the read-only `use_aws` capability:
reads and the recoverable (LOW/MEDIUM risk) state changes. -/
def boundToReadOnly (c : OperationClass) : Prop :=
  c = READ ∨ c = STATE_CHANGE_LOW ∨ c = STATE_CHANGE_MEDIUM

instance (c : OperationClass) : Decidable (boundToReadOnly c) := by
  unfold boundToReadOnly; infer_instance

/-- C1: the tool-routing map is a total, deterministic, exclusive function:
every operation class routes to exactly one capability, the mapping is
stable (it is a pure function, so two evaluations at the same class agree),
no class bound to the mutation engine is serviced by the read-only
capability, and no class bound to the read-only capability is serviced by
the mutation engine. -/
theorem routing_total_deterministic_exclusive :
    (∀ c : OperationClass, ∃! cap : CapabilityId, route c = cap) ∧
    (∀ c : OperationClass, route c = route c) ∧
    (∀ c : OperationClass, boundToMutationEngine c →
      route c = cloudFormationMCP ∧ route c ≠ use_aws) ∧
    (∀ c : OperationClass, boundToReadOnly c →
      route c = use_aws ∧ route c ≠ cloudFormationMCP) := by
  refine ⟨fun c => ⟨route c, rfl, fun cap h => h.symm⟩, fun c => rfl, fun c hc => ?_, fun c hc => ?_⟩
  · rcases hc with h | h | h | h <;> subst h <;> exact ⟨rfl, by decide⟩
  · rcases hc with h | h | h <;> subst h <;> exact ⟨rfl, by decide⟩

/-- Witness for `routing_total_deterministic_exclusive`: instantiated at
`MUTATE_DELETE` (a mutation-engine class) and `READ` (a read-only class). -/
theorem routing_total_deterministic_exclusive_witness :
    route MUTATE_DELETE = cloudFormationMCP ∧ route MUTATE_DELETE ≠ use_aws ∧
    route READ = use_aws ∧ route READ ≠ cloudFormationMCP :=
  ⟨(routing_total_deterministic_exclusive.2.2.1 MUTATE_DELETE (by decide)).1,
   (routing_total_deterministic_exclusive.2.2.1 MUTATE_DELETE (by decide)).2,
   (routing_total_deterministic_exclusive.2.2.2 READ (by decide)).1,
   (routing_total_deterministic_exclusive.2.2.2 READ (by decide)).2⟩

/-! ## Confirmation gate state machine

Embedded from `SYSTEM_PROMPT_TEMPLATE` (STATE CHANGE CONFIRMATION
VALIDATION, DELETION CONFIRMATION PROTOCOL, DELETE SECTION bulk-delete
workflow and CONFIRMATION VALIDATION RULES). -/

/-- Outcome states of a pending confirmation gate. -/
inductive GateState where
  | awaitingConfirmation
  | confirmed
  | rejectedMismatch
deriving DecidableEq, Repr

/-- The exact token the deletion protocol demands for a resource named
`name`: `DELETE name`, with the entire name in quotes when the name
contains spaces ("For resource names with spaces, require the entire name
in quotes"). -/
def requiredDeleteToken (name : String) : String :=
  if name.data.contains ' ' then "DELETE \"" ++ name ++ "\"" else "DELETE " ++ name

/-- One user reply against a pending individual-deletion gate: the gate
confirms only on an exact, case-sensitive match of the required token and
otherwise blocks execution ("Only proceed when confirmation EXACTLY
matches the required format", "BLOCK EXECUTION if confirmation is not
exact - no exceptions", "Reject partial matches, wrong case, or extra
text"). -/
def deleteGateStep (name reply : String) : GateState :=
  if reply = requiredDeleteToken name then GateState.confirmed
  else GateState.rejectedMismatch

/-- C2: a reply confirms a pending individual-deletion gate exactly when it
is the required case-sensitive token, and every other reply (partial,
case-mismatched, subset or superset) transitions the gate to
REJECTED_MISMATCH; checked in particular on the resource name
`Production DB` with the replies listed by the specification. -/
theorem delete_confirmation_exact :
    (∀ name reply : String,
      (deleteGateStep name reply = GateState.confirmed ↔
        reply = requiredDeleteToken name) ∧
      (reply ≠ requiredDeleteToken name →
        deleteGateStep name reply = GateState.rejectedMismatch)) ∧
    deleteGateStep "Production DB" "DELETE \"Production DB\"" = GateState.confirmed ∧
    deleteGateStep "Production DB" "delete Production DB" = GateState.rejectedMismatch ∧
    deleteGateStep "Production DB" "DELETE Production Db" = GateState.rejectedMismatch ∧
    deleteGateStep "Production DB" "DELETE Production" = GateState.rejectedMismatch ∧
    deleteGateStep "Production DB" "DELETE Production DB extra" = GateState.rejectedMismatch := by
  refine ⟨fun name reply => ⟨?_, fun h => ?_⟩, by decide, by decide,
    by decide, by decide, by decide⟩
  · unfold deleteGateStep
    by_cases h : reply = requiredDeleteToken name <;> simp [h]
  · simp only [deleteGateStep, if_neg h]

/-- Witness for `delete_confirmation_exact`: the general branch applied to
the concrete name `prod-db` and the superset reply `DELETE prod-db now`. -/
theorem delete_confirmation_exact_witness :
    deleteGateStep "prod-db" "DELETE prod-db now" = GateState.rejectedMismatch :=
  (delete_confirmation_exact.1 "prod-db" "DELETE prod-db now").2 (by decide)

/-! ### Decimal rendering is injective

`Nat.repr` renders via `Nat.toDigitsCore` with a fuel argument; the
recursive reformulation below removes the fuel so that injectivity can be
proved by strong induction on the rendered number. -/

/-- Fuel-free reformulation of `Nat.toDigits 10`. -/
def toDigitsRec (n : Nat) : List Char :=
  if h : n / 10 = 0 then [Nat.digitChar (n % 10)]
  else toDigitsRec (n / 10) ++ [Nat.digitChar (n % 10)]
termination_by n
decreasing_by
  exact Nat.div_lt_self (Nat.pos_of_ne_zero (fun h0 => h (by simp [h0]))) (by omega)

theorem toDigitsCore_eq_toDigitsRec (f : Nat) :
    ∀ n acc, n < f → Nat.toDigitsCore 10 f n acc = toDigitsRec n ++ acc := by
  induction f with
  | zero => intro n acc h; omega
  | succ f ih =>
    intro n acc h
    rw [Nat.toDigitsCore, toDigitsRec]
    by_cases h10 : n / 10 = 0
    · simp [h10]
    · have hlt : n / 10 < n := Nat.div_lt_self (by omega) (by omega)
      simp only [h10, if_neg, dif_neg, not_false_iff]
      rw [ih (n / 10) (Nat.digitChar (n % 10) :: acc) (by omega)]
      simp

theorem toDigitsRec_ne_nil (n : Nat) : toDigitsRec n ≠ [] := by
  rw [toDigitsRec]
  by_cases h : n / 10 = 0 <;> simp [h]

theorem digitChar_inj_lt10 :
    ∀ a < 10, ∀ b < 10, Nat.digitChar a = Nat.digitChar b → a = b := by decide

theorem toDigitsRec_base {n : Nat} (h : n / 10 = 0) :
    toDigitsRec n = [Nat.digitChar (n % 10)] := by
  rw [toDigitsRec]; simp [h]

theorem toDigitsRec_step {n : Nat} (h : ¬ n / 10 = 0) :
    toDigitsRec n = toDigitsRec (n / 10) ++ [Nat.digitChar (n % 10)] := by
  rw [toDigitsRec]; simp [h]

theorem toDigitsRec_length_pos (n : Nat) : 1 ≤ (toDigitsRec n).length := by
  cases hcase : toDigitsRec n with
  | nil => exact absurd hcase (toDigitsRec_ne_nil n)
  | cons x xs => simp

theorem toDigitsRec_inj : ∀ a b, toDigitsRec a = toDigitsRec b → a = b := by
  intro a
  induction a using Nat.strong_induction_on with
  | _ a ih =>
    intro b h
    by_cases ha : a / 10 = 0 <;> by_cases hb : b / 10 = 0
    · rw [toDigitsRec_base ha, toDigitsRec_base hb] at h
      simp only [List.cons.injEq] at h
      have hm := digitChar_inj_lt10 (a % 10) (Nat.mod_lt _ (by omega)) (b % 10)
        (Nat.mod_lt _ (by omega)) h.1
      omega
    · exfalso
      rw [toDigitsRec_base ha, toDigitsRec_step hb] at h
      have hlen := congrArg List.length h
      have hpos := toDigitsRec_length_pos (b / 10)
      simp only [List.length_append, List.length_cons, List.length_nil] at hlen
      omega
    · exfalso
      rw [toDigitsRec_step ha, toDigitsRec_base hb] at h
      have hlen := congrArg List.length h
      have hpos := toDigitsRec_length_pos (a / 10)
      simp only [List.length_append, List.length_cons, List.length_nil] at hlen
      omega
    · rw [toDigitsRec_step ha, toDigitsRec_step hb] at h
      obtain ⟨h1, h2⟩ := List.append_inj' h (by simp)
      have hq : a / 10 = b / 10 :=
        ih (a / 10) (Nat.div_lt_self (by omega) (by omega)) (b / 10) h1
      simp only [List.cons.injEq] at h2
      have hm := digitChar_inj_lt10 (a % 10) (Nat.mod_lt _ (by omega)) (b % 10)
        (Nat.mod_lt _ (by omega)) h2.1
      omega

theorem natRepr_inj {a b : Nat} (h : Nat.repr a = Nat.repr b) : a = b := by
  have ha : Nat.repr a = (toDigitsRec a).asString := by
    show (Nat.toDigits 10 a).asString = (toDigitsRec a).asString
    rw [Nat.toDigits, toDigitsCore_eq_toDigitsRec (a + 1) a [] (by omega)]
    simp
  have hb : Nat.repr b = (toDigitsRec b).asString := by
    show (Nat.toDigits 10 b).asString = (toDigitsRec b).asString
    rw [Nat.toDigits, toDigitsCore_eq_toDigitsRec (b + 1) b [] (by omega)]
    simp
  rw [ha, hb] at h
  exact toDigitsRec_inj a b (congrArg String.data h)

/-- The exact bulk-deletion confirmation token for a batch of `k`
resources: `BULK DELETE [X] RESOURCES` with the literal decimal count
("Exact string match required: BULK DELETE [COUNT] RESOURCES",
"Case-sensitive: Must be uppercase as shown", "No extra text allowed
before or after"). -/
def bulkDeleteToken (k : Nat) : String :=
  "BULK DELETE " ++ Nat.repr k ++ " RESOURCES"

/-- One user reply against a pending bulk-deletion gate for a batch of
`batchSize` resources: only the exact count-bearing token confirms
("Only proceed when exact count confirmation received", "Wrong
count/format → Display error and request retry"). -/
def bulkGateStep (batchSize : Nat) (reply : String) : GateState :=
  if reply = bulkDeleteToken batchSize then GateState.confirmed
  else GateState.rejectedMismatch

theorem bulkDeleteToken_inj {k n : Nat} (h : bulkDeleteToken k = bulkDeleteToken n) :
    k = n := by
  unfold bulkDeleteToken at h
  have hd := congrArg String.data h
  simp only [String.data_append] at hd
  rw [List.append_assoc, List.append_assoc] at hd
  have h1 := List.append_cancel_left hd
  have h2 := List.append_cancel_right h1
  refine natRepr_inj ?_
  have : ∀ s : String, s = String.mk s.data := fun s => rfl
  rw [this (Nat.repr k), this (Nat.repr n), h2]

/-- C3: for a bulk-deletion batch of exactly `k` resources the token
`BULK DELETE k RESOURCES` is the only confirming reply: a reply confirms
iff it equals that token, the token of any other count is rejected, and
on a batch of 7 the specification's lowercase, wrong-count and
wrong-trailing-word replies are all rejected. -/
theorem bulk_delete_count_exact :
    (∀ (k : Nat) (reply : String),
      (bulkGateStep k reply = GateState.confirmed ↔ reply = bulkDeleteToken k) ∧
      (reply ≠ bulkDeleteToken k → bulkGateStep k reply = GateState.rejectedMismatch)) ∧
    (∀ k n : Nat, n ≠ k → bulkGateStep k (bulkDeleteToken n) = GateState.rejectedMismatch) ∧
    bulkGateStep 7 "BULK DELETE 7 RESOURCES" = GateState.confirmed ∧
    bulkGateStep 7 "BULK DELETE 6 RESOURCES" = GateState.rejectedMismatch ∧
    bulkGateStep 7 "bulk delete 7 resources" = GateState.rejectedMismatch ∧
    bulkGateStep 7 "BULK DELETE 7 RESOURCE" = GateState.rejectedMismatch := by
  refine ⟨fun k reply => ⟨?_, fun h => ?_⟩, fun k n hne => ?_, ?_, ?_, ?_, ?_⟩
  · unfold bulkGateStep
    by_cases h : reply = bulkDeleteToken k <;> simp [h]
  · simp only [bulkGateStep, if_neg h]
  · have : bulkDeleteToken n ≠ bulkDeleteToken k := fun hc => hne (bulkDeleteToken_inj hc)
    simp only [bulkGateStep, if_neg this]
  · show bulkGateStep 7 (bulkDeleteToken 7) = GateState.confirmed
    simp [bulkGateStep]
  · exact (by decide)
  · exact (by decide)
  · exact (by decide)

/-- Witness for `bulk_delete_count_exact`: the wrong-count branch applied
at batch size 7 with count 6. -/
theorem bulk_delete_count_exact_witness :
    bulkGateStep 7 (bulkDeleteToken 6) = GateState.rejectedMismatch :=
  bulk_delete_count_exact.2.1 7 6 (by decide)

/-! ### Two-stage confirmation for CRITICAL resources

Embedded from the DELETE SECTION of `SYSTEM_PROMPT_TEMPLATE`:
"For CRITICAL resources: Enhanced two-stage confirmation required:
Stage 1: CRITICAL resources detected. Type: I UNDERSTAND THE RISK,
Stage 2: Now type: BULK DELETE [X] RESOURCES,
Both confirmations must be exact matches (case-sensitive)". -/

/-- The generic stage-one risk-acknowledgment token. -/
def riskAcknowledgmentToken : String := "I UNDERSTAND THE RISK"

/-- A pending CRITICAL-tier bulk-deletion gate: the batch size fixes the
stage-two token, and `riskAcknowledged` records whether stage one has
reached CONFIRMED. -/
structure CriticalGate where
  batchSize : Nat
  riskAcknowledged : Bool
deriving DecidableEq, Repr

/-- Per-reply outcome of the critical gate. -/
inductive CriticalStepResult where
  | stageOneConfirmed
  | confirmed
  | rejectedMismatch
deriving DecidableEq, Repr

/-- One user reply against a CRITICAL-tier gate: while stage one is not
yet confirmed, only the exact risk-acknowledgment token advances the gate
and every other reply — the resource-specific stage-two token included —
is a mismatch; once stage one is confirmed, the exact count-bearing
stage-two token confirms. -/
def criticalGateStep (g : CriticalGate) (reply : String) :
    CriticalStepResult × CriticalGate :=
  if g.riskAcknowledged = false then
    if reply = riskAcknowledgmentToken then
      (CriticalStepResult.stageOneConfirmed, { g with riskAcknowledged := true })
    else (CriticalStepResult.rejectedMismatch, g)
  else
    if reply = bulkDeleteToken g.batchSize then (CriticalStepResult.confirmed, g)
    else (CriticalStepResult.rejectedMismatch, g)

/-- Run a CRITICAL-tier gate over a sequence of user replies, recording
whether the stage-two confirmation was ever produced. -/
def runCriticalGate (g : CriticalGate) : List String → CriticalGate × Bool
  | [] => (g, false)
  | reply :: rest =>
    let step := criticalGateStep g reply
    let tail := runCriticalGate step.2 rest
    (tail.1, step.1 = CriticalStepResult.confirmed || tail.2)

theorem bulkDeleteToken_ne_risk (k : Nat) :
    bulkDeleteToken k ≠ riskAcknowledgmentToken := by
  intro h
  have hd := congrArg String.data h
  simp only [bulkDeleteToken, String.data_append] at hd
  have hhead := congrArg List.head? hd
  have hB : ("BULK DELETE ".data ++ (Nat.repr k).data ++ " RESOURCES".data).head? =
      some 'B' := rfl
  rw [hB] at hhead
  have hI : (riskAcknowledgmentToken.data).head? = some 'I' := rfl
  rw [hI] at hhead
  simp at hhead

/-- C4: for a CRITICAL-tier gate the stage-two token is never accepted
before the generic risk acknowledgment: with stage one unconfirmed, a
reply carrying the stage-two token of ANY batch size — including the
gate's own, exactly matching token — yields REJECTED_MISMATCH and leaves
the gate unchanged; and over a whole run, if no reply equals the
risk-acknowledgment token then the gate never acknowledges stage one and
never confirms. -/
theorem critical_two_stage_order :
    (∀ k n : Nat,
      criticalGateStep ⟨k, false⟩ (bulkDeleteToken n) =
        (CriticalStepResult.rejectedMismatch, ⟨k, false⟩)) ∧
    (∀ (k : Nat) (replies : List String),
      riskAcknowledgmentToken ∉ replies →
      (runCriticalGate ⟨k, false⟩ replies).1.riskAcknowledged = false ∧
      (runCriticalGate ⟨k, false⟩ replies).2 = false) := by
  constructor
  · intro k n
    simp [criticalGateStep, bulkDeleteToken_ne_risk n]
  · intro k replies
    induction replies with
    | nil => intro _; exact ⟨rfl, rfl⟩
    | cons r rest ih =>
      intro hmem
      have hr : r ≠ riskAcknowledgmentToken := fun h => hmem (h ▸ List.mem_cons_self r rest)
      have hrest : riskAcknowledgmentToken ∉ rest := fun h => hmem (List.mem_cons_of_mem r h)
      have hstep : criticalGateStep ⟨k, false⟩ r = (CriticalStepResult.rejectedMismatch, ⟨k, false⟩) := by
        simp [criticalGateStep, hr]
      obtain ⟨ih1, ih2⟩ := ih hrest
      simp only [runCriticalGate, hstep]
      exact ⟨ih1, by simp [ih2]⟩

/-- Witness for `critical_two_stage_order`: a batch of 3 with the exactly
matching stage-two token sent first is rejected, and a run consisting of
only that token never confirms. -/
theorem critical_two_stage_order_witness :
    criticalGateStep ⟨3, false⟩ (bulkDeleteToken 3) =
      (CriticalStepResult.rejectedMismatch, ⟨3, false⟩) ∧
    (runCriticalGate ⟨3, false⟩ ["BULK DELETE 3 RESOURCES"]).2 = false :=
  ⟨critical_two_stage_order.1 3 3,
   (critical_two_stage_order.2 3 ["BULK DELETE 3 RESOURCES"] (by decide)).2⟩

/-! ## Region resolution

Embedded from `SYSTEM_PROMPT_TEMPLATE` (DYNAMIC REGION RESOLUTION
PROTOCOL / UNIVERSAL READ OPERATION ENFORCEMENT: "Region resolution
priority: 1) User-specified region, 2) AWS_REGION environment variable,
3) us-east-1 default", "ALWAYS include --region parameter in ALL use_aws
tool calls") and from `get_aws_region` in `src/utils/aws_helpers.py`. -/

/-- Python truthiness of an optional string: `None` and the empty string
are falsy. -/
def pyTruthy : Option String → Bool
  | none => false
  | some s => !(s = "")

/-- Python's `a or b` over optional strings, as used by
`os.getenv('AWS_REGION') or os.getenv('AWS_DEFAULT_REGION')`. -/
def pyOr (a b : Option String) : Option String :=
  if pyTruthy a then a else b

/-- The module constant `DEFAULT_REGION` of `src/utils/aws_helpers.py`. -/
def DEFAULT_REGION : String := "us-east-2"

/-- `get_aws_region` of `src/utils/aws_helpers.py`: the `AWS_REGION`
environment variable, else `AWS_DEFAULT_REGION`, else the boto3 session
region (`none` also covers the exception path of the `try` block), else
`DEFAULT_REGION`. -/
def get_aws_region (envAwsRegion envAwsDefaultRegion sessionRegion : Option String) :
    String :=
  let region := pyOr envAwsRegion envAwsDefaultRegion
  if pyTruthy region then region.getD ""
  else if pyTruthy sessionRegion then sessionRegion.getD ""
  else DEFAULT_REGION

/-- The prompt-level region resolution: user-specified region first, then
the `AWS_REGION` environment value, then the fixed `us-east-1` default. -/
def resolveRegion (userRegion envRegion : Option String) : String :=
  match userRegion with
  | some r => r
  | none =>
    match envRegion with
    | some r => r
    | none => "us-east-1"

/-- A `use_aws` read dispatch; the prompt mandates an explicit `--region`
parameter on every call. -/
structure ReadDispatch where
  service : String
  operation : String
  region : String
deriving DecidableEq, Repr

/-- All read dispatches of one turn: every call of the turn carries the
region resolved once for the turn ("ALWAYS resolve region FIRST, then
include in tool call"). -/
def turnDispatches (userRegion envRegion : Option String)
    (calls : List (String × String)) : List ReadDispatch :=
  calls.map (fun c => ⟨c.1, c.2, resolveRegion userRegion envRegion⟩)

/-- C5: every read dispatch carries an explicit region resolved with
priority user-specified > environment-configured > fixed default: with no
user region and environment `us-west-2` every dispatch of the turn
carries `us-west-2`; a user override `eu-central-1` wins over any
environment value for every dispatch; with neither, every dispatch
carries the one fixed default region; and the helper `get_aws_region`
obeys the same environment-over-default priority with its own fixed
default. -/
theorem region_resolution_priority :
    (∀ calls : List (String × String), ∀ d ∈ turnDispatches none (some "us-west-2") calls,
      d.region = "us-west-2") ∧
    (∀ (envRegion : Option String) (calls : List (String × String)),
      ∀ d ∈ turnDispatches (some "eu-central-1") envRegion calls,
      d.region = "eu-central-1") ∧
    (∀ calls : List (String × String), ∀ d ∈ turnDispatches none none calls,
      d.region = "us-east-1") ∧
    (∀ d d' : ReadDispatch, ∀ calls : List (String × String),
      d ∈ turnDispatches none none calls → d' ∈ turnDispatches none none calls →
      d.region = d'.region) ∧
    (∀ s : String, s ≠ "" → ∀ rest session : Option String,
      get_aws_region (some s) rest session = s) ∧
    get_aws_region none none none = DEFAULT_REGION := by
  refine ⟨?_, ?_, ?_, ?_, ?_, rfl⟩
  · intro calls d hd
    obtain ⟨c, _, rfl⟩ := List.mem_map.1 hd
    rfl
  · intro envRegion calls d hd
    obtain ⟨c, _, rfl⟩ := List.mem_map.1 hd
    rfl
  · intro calls d hd
    obtain ⟨c, _, rfl⟩ := List.mem_map.1 hd
    rfl
  · intro d d' calls hd hd'
    obtain ⟨c, _, rfl⟩ := List.mem_map.1 hd
    obtain ⟨c', _, rfl⟩ := List.mem_map.1 hd'
    rfl
  · intro s hs rest session
    simp [get_aws_region, pyOr, pyTruthy, hs]

/-- Witness for `region_resolution_priority`: the theorem applied to one
concrete dispatch of a one-call turn in each scenario, and to
`get_aws_region` with `AWS_REGION=us-west-2`. -/
theorem region_resolution_priority_witness :
    (ReadDispatch.mk "ec2" "describe-instances" "us-west-2").region = "us-west-2" ∧
    (ReadDispatch.mk "ec2" "describe-instances" "eu-central-1").region = "eu-central-1" ∧
    (ReadDispatch.mk "ec2" "describe-instances" "us-east-1").region = "us-east-1" ∧
    get_aws_region (some "us-west-2") none none = "us-west-2" :=
  ⟨region_resolution_priority.1 [("ec2", "describe-instances")]
      (ReadDispatch.mk "ec2" "describe-instances" "us-west-2") (by decide),
   region_resolution_priority.2.1 (some "us-west-2") [("ec2", "describe-instances")]
      (ReadDispatch.mk "ec2" "describe-instances" "eu-central-1") (by decide),
   region_resolution_priority.2.2.1 [("ec2", "describe-instances")]
      (ReadDispatch.mk "ec2" "describe-instances" "us-east-1") (by decide),
   region_resolution_priority.2.2.2.2.1 "us-west-2" (by decide) none none⟩

/-! ## Retry helper

Embedded from `retry_operation` in `src/app.py`:

    def retry_operation(operation, max_retries=2, delay=1):
        for attempt in range(max_retries + 1):
            try:
                return operation()
            except Exception as e:
                if attempt == max_retries:
                    raise e
                time.sleep(delay * (2 ** attempt))

The operation is modelled as a function from the attempt index to an
`Except` outcome; the trace records how many attempts were made, the
sleeps performed between attempts, and the final outcome. -/

/-- Coarse classification of raised errors; `retry_operation` itself never
inspects it (it catches every `Exception`). -/
inductive ErrorClass where
  | clientError400
  | permission403
  | conflict409
  | serverError500
  | throttling429
  | unavailable503
  | timeout
deriving DecidableEq, Repr

/-- Trace of one `retry_operation` run. -/
structure RetryTrace (A : Type) where
  attempts : Nat
  sleeps : List Nat
  result : Except ErrorClass A
deriving Repr

/-- The loop body of `retry_operation` from attempt index `attempt` with
`remaining` further attempts allowed after this one. -/
def retryGo (op : Nat → Except ErrorClass A) (delay : Nat) :
    Nat → Nat → RetryTrace A
  | attempt, 0 =>
    match op attempt with
    | Except.ok a => ⟨1, [], Except.ok a⟩
    | Except.error e => ⟨1, [], Except.error e⟩
  | attempt, remaining + 1 =>
    match op attempt with
    | Except.ok a => ⟨1, [], Except.ok a⟩
    | Except.error _ =>
      let tail := retryGo op delay (attempt + 1) remaining
      ⟨tail.attempts + 1, delay * 2 ^ attempt :: tail.sleeps, tail.result⟩

/-- `retry_operation(operation, max_retries, delay)`. The Python default
arguments are `max_retries=2, delay=1`. -/
def retry_operation (op : Nat → Except ErrorClass A) (max_retries delay : Nat) :
    RetryTrace A :=
  retryGo op delay 0 max_retries

theorem retryGo_attempts_le (op : Nat → Except ErrorClass A) (delay : Nat) :
    ∀ remaining attempt, (retryGo op delay attempt remaining).attempts ≤ remaining + 1 := by
  intro remaining
  induction remaining with
  | zero =>
    intro attempt
    unfold retryGo
    cases op attempt <;> simp
  | succ r ih =>
    intro attempt
    unfold retryGo
    cases op attempt with
    | ok a => simp
    | error e =>
      have := ih (attempt + 1)
      simp only
      omega

theorem retryGo_attempts_pos (op : Nat → Except ErrorClass A) (delay : Nat) :
    ∀ remaining attempt, 1 ≤ (retryGo op delay attempt remaining).attempts := by
  intro remaining attempt
  cases remaining <;> unfold retryGo <;> cases op attempt <;> simp

theorem retryGo_sleeps (op : Nat → Except ErrorClass A) (delay : Nat) :
    ∀ remaining attempt,
      (retryGo op delay attempt remaining).sleeps =
        (List.range ((retryGo op delay attempt remaining).attempts - 1)).map
          (fun i => delay * 2 ^ (attempt + i)) := by
  intro remaining
  induction remaining with
  | zero =>
    intro attempt
    unfold retryGo
    cases op attempt <;> simp
  | succ r ih =>
    intro attempt
    unfold retryGo
    cases op attempt with
    | ok a => simp
    | error e =>
      simp only [Nat.add_sub_cancel]
      have hpos := retryGo_attempts_pos op delay r (attempt + 1)
      rw [ih (attempt + 1)]
      have hsplit : (retryGo op delay (attempt + 1) r).attempts =
          ((retryGo op delay (attempt + 1) r).attempts - 1) + 1 := by omega
      rw [hsplit, List.range_succ_eq_map]
      simp only [Nat.add_sub_cancel, List.map_cons, List.map_map, Nat.add_zero]
      congr 1
      refine List.map_congr_left fun i _ => ?_
      simp only [Function.comp_apply, Nat.succ_eq_add_one]
      have harith : attempt + 1 + i = attempt + (i + 1) := by omega
      rw [harith]

theorem retryGo_const_error (e : ErrorClass) (delay : Nat) :
    ∀ remaining attempt,
      (retryGo (fun _ => (Except.error e : Except ErrorClass A)) delay attempt remaining).attempts
        = remaining + 1 := by
  intro remaining
  induction remaining with
  | zero => intro attempt; rfl
  | succ r ih =>
    intro attempt
    unfold retryGo
    simp only
    rw [ih (attempt + 1)]

/-- The claim that `retry_operation` never retries client errors: a run
whose first attempt raises a 4xx client error stops after one attempt. -/
def clientErrorsNeverRetried : Prop :=
  ∀ op : Nat → Except ErrorClass Unit,
    op 0 = Except.error ErrorClass.clientError400 →
    (retry_operation op 2 1).attempts = 1

/-- The claim that `retry_operation` waits exactly 5 seconds between
attempts: every recorded sleep is 5 seconds long. -/
def fiveSecondSpacing : Prop :=
  ∀ op : Nat → Except ErrorClass Unit,
    ∀ s ∈ (retry_operation op 2 1).sleeps, s = 5

/-- C6 counterexample: with the Python defaults `max_retries=2, delay=1`,
an operation that always raises a 4xx client error is retried anyway —
three attempts are made and the sleeps are 1 s and 2 s (exponential
backoff), not 5 s — so the transient-only / five-second-spacing claim is
false of `retry_operation`. -/
theorem retry_transient_only_counterexample :
    (retry_operation (fun _ => (Except.error ErrorClass.clientError400 : Except ErrorClass Unit))
        2 1).attempts = 3 ∧
    (retry_operation (fun _ => (Except.error ErrorClass.clientError400 : Except ErrorClass Unit))
        2 1).sleeps = [1, 2] ∧
    ¬ clientErrorsNeverRetried ∧ ¬ fiveSecondSpacing := by
  refine ⟨rfl, rfl, fun h => ?_, fun h => ?_⟩
  · have := h (fun _ => Except.error ErrorClass.clientError400) rfl
    simp [retry_operation, retryGo] at this
  · have hmem : (1 : Nat) ∈ (retry_operation
        (fun _ => (Except.error ErrorClass.clientError400 : Except ErrorClass Unit)) 2 1).sleeps := by
      have hs : (retry_operation
          (fun _ => (Except.error ErrorClass.clientError400 : Except ErrorClass Unit)) 2 1).sleeps
          = [1, 2] := rfl
      rw [hs]
      decide
    have := h (fun _ => Except.error ErrorClass.clientError400) 1 hmem
    omega

/-- C6 amended: `retry_operation` is bounded but class-blind: it makes at
most `max_retries + 1` attempts (three with the Python defaults), an
operation that succeeds on the first attempt is not retried and incurs no
sleep, the sleeps between attempts follow the exponential backoff
schedule `delay * 2 ^ attempt` (1 s then 2 s with the defaults, 3 s in
total), and an operation that keeps failing is driven to the full number
of attempts whatever the error class — client errors (4xx/403/409)
included. -/
theorem retry_bounded_exponential_class_blind :
    (∀ (op : Nat → Except ErrorClass Unit) (max_retries delay : Nat),
      (retry_operation op max_retries delay).attempts ≤ max_retries + 1) ∧
    (∀ op : Nat → Except ErrorClass Unit, (retry_operation op 2 1).attempts ≤ 3) ∧
    (∀ (a : Unit) (op : Nat → Except ErrorClass Unit) (max_retries delay : Nat),
      op 0 = Except.ok a →
      retry_operation op max_retries delay = ⟨1, [], Except.ok a⟩) ∧
    (∀ (op : Nat → Except ErrorClass Unit) (max_retries delay : Nat),
      (retry_operation op max_retries delay).sleeps =
        (List.range ((retry_operation op max_retries delay).attempts - 1)).map
          (fun i => delay * 2 ^ i)) ∧
    (∀ e : ErrorClass,
      (retry_operation (fun _ => (Except.error e : Except ErrorClass Unit)) 2 1).attempts = 3 ∧
      (retry_operation (fun _ => (Except.error e : Except ErrorClass Unit)) 2 1).sleeps.sum = 3) := by
  refine ⟨?_, ?_, ?_, ?_, ?_⟩
  · intro op max_retries delay
    exact retryGo_attempts_le op delay max_retries 0
  · intro op
    exact retryGo_attempts_le op 1 2 0
  · intro a op max_retries delay h
    unfold retry_operation retryGo
    cases max_retries <;> simp [h]
  · intro op max_retries delay
    have := retryGo_sleeps op delay max_retries 0
    simpa [retry_operation] using this
  · intro e
    refine ⟨retryGo_const_error e 1 2 0, ?_⟩
    have : (retry_operation (fun _ => (Except.error e : Except ErrorClass Unit)) 2 1).sleeps
        = [1, 2] := rfl
    rw [this]
    rfl

/-- Witness for `retry_bounded_exponential_class_blind`: the
success-short-circuit branch applied to an operation succeeding at once. -/
theorem retry_bounded_exponential_class_blind_witness :
    retry_operation (fun _ => (Except.ok () : Except ErrorClass Unit)) 2 1 =
      ⟨1, [], Except.ok ()⟩ :=
  retry_bounded_exponential_class_blind.2.2.1 () (fun _ => Except.ok ()) 2 1 rfl

/-! ## Multi-task splitter

Embedded from `SYSTEM_PROMPT_TEMPLATE` (MULTI-TASK REQUEST HANDLING):
detection triggers are "3+ distinct operations with different verbs",
"multiple bullet points or numbered items", "combines read operations
with write operations", and "estimated total execution time > 90
seconds"; the handling protocol executes the read groups, pauses with
their results, and dispatches the write group only after an explicit user
continuation; and the critical rules demand "NEVER execute all tasks in
one go if total time > 90 seconds". -/

/-- One sub-task of a bundled request: read vs. write, with the prompt's
per-task duration estimate in seconds. -/
structure TaskItem where
  isWrite : Bool
  estSeconds : Nat
deriving DecidableEq, Repr

/-- A bundled user request as the detection rules see it. -/
structure MultiRequest where
  tasks : List TaskItem
  distinctVerbs : Nat
  listFormatted : Bool
deriving DecidableEq, Repr

/-- Total estimated execution time of the request. -/
def totalDuration (r : MultiRequest) : Nat :=
  (r.tasks.map TaskItem.estSeconds).sum

/-- Detection: any one of the four multi-task indicators triggers. -/
def isMultiTask (r : MultiRequest) : Bool :=
  decide (3 ≤ r.distinctVerbs) || r.listFormatted ||
    (r.tasks.any (fun t => !t.isWrite) && r.tasks.any (fun t => t.isWrite)) ||
    decide (90 < totalDuration r)

/-- The execution plan of a turn: either everything runs in one
uninterrupted pass, or the read tasks run now and the write tasks are
deferred behind a pause-and-confirm step. -/
inductive ExecutionPlan where
  | singlePass (tasks : List TaskItem)
  | splitWithPause (immediate deferred : List TaskItem)
deriving DecidableEq, Repr

/-- Plan construction per the handling protocol: a detected multi-task
request executes its read tasks immediately and defers its write tasks
behind the pause; anything else runs in one pass. -/
def makePlan (r : MultiRequest) : ExecutionPlan :=
  if isMultiTask r then
    ExecutionPlan.splitWithPause (r.tasks.filter (fun t => !t.isWrite))
      (r.tasks.filter (fun t => t.isWrite))
  else ExecutionPlan.singlePass r.tasks

/-- Write tasks dispatched during the first, uninterrupted part of the
turn (before any pause). -/
def writesDispatchedWithoutPause (r : MultiRequest) : List TaskItem :=
  match makePlan r with
  | ExecutionPlan.singlePass tasks => tasks.filter (fun t => t.isWrite)
  | ExecutionPlan.splitWithPause _ _ => []

/-- Write tasks dispatched after the pause, gated on the user's explicit
continuation reply ("WAIT for user confirmation before proceeding"). -/
def writesDispatchedAfterPause (r : MultiRequest) (userContinues : Bool) : List TaskItem :=
  match makePlan r with
  | ExecutionPlan.singlePass _ => []
  | ExecutionPlan.splitWithPause _ deferred =>
    if userContinues then deferred else []

/-- The two-verb, 20-second request of the specification's test property,
with one read and one write action (e.g. "check X and enable Y"). -/
def twoVerbMixedRequest : MultiRequest :=
  ⟨[⟨false, 10⟩, ⟨true, 10⟩], 2, false⟩

/-- C7 counterexample: the claim that a request with only 2 action verbs
and 20 seconds estimated duration never triggers splitting is false: a
2-verb, 20-second request that combines a read with a write matches the
prompt's read-plus-write detection trigger and is split. -/
theorem multitask_two_verb_counterexample :
    twoVerbMixedRequest.distinctVerbs = 2 ∧
    totalDuration twoVerbMixedRequest = 20 ∧
    twoVerbMixedRequest.listFormatted = false ∧
    isMultiTask twoVerbMixedRequest = true ∧
    makePlan twoVerbMixedRequest =
      ExecutionPlan.splitWithPause [⟨false, 10⟩] [⟨true, 10⟩] := by
  refine ⟨rfl, rfl, rfl, rfl, ?_⟩
  rfl

/-- C7 amended: when the estimated cumulative duration exceeds 90 seconds
the plan is never one uninterrupted pass — no write task is dispatched
before the pause, and the deferred write group runs only on an explicit
user continuation; and a 2-verb, 20-second request is not split unless it
is list-formatted or mixes read and write operations. -/
theorem multitask_split_over_90s :
    (∀ r : MultiRequest, 90 < totalDuration r →
      (∀ tasks, makePlan r ≠ ExecutionPlan.singlePass tasks) ∧
      writesDispatchedWithoutPause r = [] ∧
      writesDispatchedAfterPause r false = []) ∧
    (∀ r : MultiRequest, r.distinctVerbs = 2 → totalDuration r ≤ 90 →
      r.listFormatted = false →
      (r.tasks.any (fun t => !t.isWrite) && r.tasks.any (fun t => t.isWrite)) = false →
      makePlan r = ExecutionPlan.singlePass r.tasks) := by
  constructor
  · intro r hdur
    have hmt : isMultiTask r = true := by
      unfold isMultiTask
      simp only [Bool.or_eq_true, decide_eq_true_eq]
      right
      exact hdur
    refine ⟨fun tasks h => ?_, ?_, ?_⟩
    · rw [makePlan, if_pos hmt] at h
      exact ExecutionPlan.noConfusion h
    · rw [writesDispatchedWithoutPause]
      rw [makePlan, if_pos hmt]
    · rw [writesDispatchedAfterPause]
      rw [makePlan, if_pos hmt]
      rfl
  · intro r hv hdur hlist hmix
    have hmt : isMultiTask r = false := by
      unfold isMultiTask
      simp only [Bool.or_eq_false_iff, decide_eq_false_iff_not]
      exact ⟨⟨⟨by omega, hlist⟩, hmix⟩, by omega⟩
    rw [makePlan, if_neg (by simp [hmt])]

/-- Witness for `multitask_split_over_90s`: a 120-second four-task request
is split (no writes before the pause), and a 2-verb pure-read 20-second
request runs in one pass. -/
theorem multitask_split_over_90s_witness :
    writesDispatchedWithoutPause ⟨[⟨false, 15⟩, ⟨false, 45⟩, ⟨true, 40⟩, ⟨true, 20⟩], 4, false⟩ = [] ∧
    makePlan ⟨[⟨false, 10⟩, ⟨false, 10⟩], 2, false⟩ =
      ExecutionPlan.singlePass [⟨false, 10⟩, ⟨false, 10⟩] :=
  ⟨(multitask_split_over_90s.1 ⟨[⟨false, 15⟩, ⟨false, 45⟩, ⟨true, 40⟩, ⟨true, 20⟩], 4, false⟩
      (by decide)).2.1,
   multitask_split_over_90s.2 ⟨[⟨false, 10⟩, ⟨false, 10⟩], 2, false⟩ rfl (by decide) rfl (by decide)⟩

/-! ## Request payload validation

Embedded from `validate_request` in `src/runtime/request_validator.py`:

    if not isinstance(payload, dict):
        return False, "Payload must be a dictionary"
    if not any(key in payload for key in ['prompt', 'message', 'input', 'task_key']):
        return False, "Payload must contain 'prompt', 'message', 'input', or 'task_key'"
    return True, None
-/

/-- A Python value as far as the validator can observe it: the validator
never looks inside, so a few representative shapes suffice. -/
inductive PyValue where
  | str (s : String)
  | int (n : Int)
  | noneVal
deriving DecidableEq, Repr

/-- A payload: either not a dictionary at all, or a dictionary given by
its key/value entries. -/
inductive Payload where
  | notDict
  | dict (entries : List (String × PyValue))
deriving DecidableEq, Repr

/-- The four input keys accepted by the validator. -/
def inputKeys : List String := ["prompt", "message", "input", "task_key"]

/-- Key membership, Python's `key in payload`. -/
def hasKey (entries : List (String × PyValue)) (k : String) : Bool :=
  entries.any (fun e => e.1 = k)

/-- `validate_request` of `src/runtime/request_validator.py`. -/
def validate_request : Payload → Bool × Option String
  | Payload.notDict => (false, some "Payload must be a dictionary")
  | Payload.dict entries =>
    if inputKeys.any (fun k => hasKey entries k) then (true, none)
    else (false, some "Payload must contain 'prompt', 'message', 'input', or 'task_key'")

theorem validate_request_dict_eq (entries : List (String × PyValue)) :
    validate_request (Payload.dict entries) =
      if inputKeys.any (fun k => hasKey entries k) then (true, none)
      else (false, some "Payload must contain 'prompt', 'message', 'input', or 'task_key'") :=
  rfl

theorem hasKey_iff (entries : List (String × PyValue)) (k : String) :
    hasKey entries k = true ↔ k ∈ entries.map Prod.fst := by
  unfold hasKey
  rw [List.any_eq_true]
  constructor
  · rintro ⟨e, he, hk⟩
    have hfst : e.1 = k := by simpa using hk
    exact hfst ▸ List.mem_map_of_mem Prod.fst he
  · intro hm
    obtain ⟨e, he, hfst⟩ := List.mem_map.1 hm
    exact ⟨e, he, by simp [hfst]⟩

theorem hasKey_congr {entries entries' : List (String × PyValue)}
    (h : entries.map Prod.fst = entries'.map Prod.fst) (k : String) :
    hasKey entries k = hasKey entries' k := by
  have hiff : hasKey entries k = true ↔ hasKey entries' k = true := by
    rw [hasKey_iff, hasKey_iff, h]
  cases hc : hasKey entries k with
  | true => exact (hiff.1 hc).symm
  | false =>
    cases hc2 : hasKey entries' k with
    | true => exact absurd (hiff.2 hc2) (by simp [hc])
    | false => rfl

/-- C9: `validate_request` fails exactly on non-dictionaries and on
dictionaries containing none of the keys `prompt`, `message`, `input`,
`task_key`, returns `(true, none)` otherwise, is total (it is a Lean
function, hence never raises), and never inspects values: its verdict
depends only on the key list, so a payload whose `prompt` value is the
empty string or a non-string still validates. -/
theorem validate_request_keys_only :
    (∀ p : Payload,
      ((validate_request p).1 = false ↔
        p = Payload.notDict ∨
          ∃ entries, p = Payload.dict entries ∧
            inputKeys.any (fun k => hasKey entries k) = false) ∧
      ((validate_request p).1 = true → validate_request p = (true, none))) ∧
    (∀ entries entries' : List (String × PyValue),
      entries.map Prod.fst = entries'.map Prod.fst →
      validate_request (Payload.dict entries) = validate_request (Payload.dict entries')) ∧
    validate_request (Payload.dict [("prompt", PyValue.str "")]) = (true, none) ∧
    validate_request (Payload.dict [("prompt", PyValue.int 7)]) = (true, none) ∧
    validate_request (Payload.dict [("body", PyValue.str "hi")]) =
      (false, some "Payload must contain 'prompt', 'message', 'input', or 'task_key'") ∧
    validate_request Payload.notDict = (false, some "Payload must be a dictionary") := by
  refine ⟨fun p => ⟨?_, ?_⟩, ?_, by decide, by decide, by decide, rfl⟩
  · cases p with
    | notDict => exact ⟨fun _ => Or.inl rfl, fun _ => rfl⟩
    | dict entries =>
      rw [validate_request_dict_eq]
      by_cases h : inputKeys.any (fun k => hasKey entries k) = true
      · rw [if_pos h]
        constructor
        · intro hfalse; cases hfalse
        · rintro (hc | ⟨entries2, he, hany⟩)
          · cases hc
          · cases he
            rw [h] at hany
            cases hany
      · rw [if_neg h]
        simp only [Bool.not_eq_true] at h
        exact ⟨fun _ => Or.inr ⟨entries, rfl, h⟩, fun _ => rfl⟩
  · intro h
    cases p with
    | notDict => cases h
    | dict entries =>
      rw [validate_request_dict_eq] at h ⊢
      by_cases hk : inputKeys.any (fun k => hasKey entries k) = true
      · rw [if_pos hk]
      · rw [if_neg hk] at h
        cases h
  · intro entries entries' h
    rw [validate_request_dict_eq, validate_request_dict_eq]
    have hfun : (fun k => hasKey entries k) = (fun k => hasKey entries' k) := by
      funext k
      exact hasKey_congr h k
    rw [hfun]

/-- Witness for `validate_request_keys_only`: value-independence applied
to a `prompt` entry whose value changes from a string to an integer. -/
theorem validate_request_keys_only_witness :
    validate_request (Payload.dict [("prompt", PyValue.str "hello")]) =
      validate_request (Payload.dict [("prompt", PyValue.int 3)]) :=
  validate_request_keys_only.2.1 [("prompt", PyValue.str "hello")]
    [("prompt", PyValue.int 3)] rfl

/-! ## Content deduplication

Embedded from `deduplicate_content` in `src/app.py`:

    if not content:
        return content
    sections = content.split('\n---\n')
    seen_sections = set()
    unique_sections = []
    for section in sections:
        section_hash = hashlib.md5(section.strip().encode()).hexdigest()
        if section_hash not in seen_sections and section.strip():
            seen_sections.add(section_hash)
            unique_sections.append(section)
    return '\n---\n'.join(unique_sections)

Strings are modelled as `List Char`; `str.split`/`str.join` on the fixed
separator become `splitSep`/`joinSep`; the MD5 hash of the stripped text
is modelled as the stripped text itself (the hash is assumed
collision-free); `str.strip()` becomes `strip` over the ASCII whitespace
characters recognised by `Char.isWhitespace`. -/

/-- The section separator `'\n---\n'`. -/
def SEP : List Char := ['\n', '-', '-', '-', '\n']

/-- Python's `str.strip()`: drop leading and trailing whitespace. -/
def strip (p : List Char) : List Char :=
  ((p.dropWhile Char.isWhitespace).reverse.dropWhile Char.isWhitespace).reverse

/-- Python's `content.split('\n---\n')`: greedy leftmost non-overlapping
splitting on the separator. -/
def splitSep : List Char → List (List Char)
  | [] => [[]]
  | c :: cs =>
    if SEP <+: (c :: cs) then [] :: splitSep (cs.drop 4)
    else
      match splitSep cs with
      | [] => [[c]]
      | p :: ps => (c :: p) :: ps
termination_by l => l.length
decreasing_by
  · simp only [List.length_cons, List.length_drop]
    omega
  · simp

/-- Python's `'\n---\n'.join(sections)`. -/
def joinSep : List (List Char) → List Char
  | [] => []
  | [p] => p
  | p :: q :: rest => p ++ SEP ++ joinSep (q :: rest)

/-- The deduplication loop: keep a section iff its stripped text is
nonempty and unseen; record the stripped text only when kept. -/
def dedupPieces (seen : List (List Char)) : List (List Char) → List (List Char)
  | [] => []
  | s :: rest =>
    if strip s ∈ seen ∨ strip s = [] then dedupPieces seen rest
    else s :: dedupPieces (strip s :: seen) rest

/-- `deduplicate_content` of `src/app.py` (the `try` body never raises in
this model, so the `except` fallback is unreachable). -/
def deduplicate_content (content : List Char) : List Char :=
  if content = [] then content
  else joinSep (dedupPieces [] (splitSep content))

theorem splitSep_nil : splitSep [] = [[]] := by
  rw [splitSep]

theorem splitSep_cons_pos {c : Char} {cs : List Char} (h : SEP <+: (c :: cs)) :
    splitSep (c :: cs) = [] :: splitSep (cs.drop 4) := by
  rw [splitSep, if_pos h]

theorem splitSep_cons_neg {c : Char} {cs : List Char} (h : ¬ SEP <+: (c :: cs)) :
    splitSep (c :: cs) =
      match splitSep cs with
      | [] => [[c]]
      | p :: ps => (c :: p) :: ps := by
  rw [splitSep, if_neg h]

theorem splitSep_ne_nil (xs : List Char) : splitSep xs ≠ [] := by
  cases xs with
  | nil => rw [splitSep_nil]; simp
  | cons c cs =>
    by_cases h : SEP <+: (c :: cs)
    · rw [splitSep_cons_pos h]; simp
    · rw [splitSep_cons_neg h]
      cases splitSep cs <;> simp

/-- The separator does not occur (as an infix) in `p`. -/
def NoSep (p : List Char) : Prop := ∀ i, ¬ SEP <+: p.drop i

/-- Greedy-split piece invariant for a piece followed by a separator: the
first separator occurrence in `p ++ SEP` is exactly at position
`p.length`. -/
def Clean (p : List Char) : Prop := ∀ i < p.length, ¬ SEP <+: (p ++ SEP).drop i

/-- Invariant of a piece list as produced by greedy splitting: every
non-final piece is `Clean`, the final piece is separator-free. -/
def GoodPieces : List (List Char) → Prop
  | [] => True
  | [p] => NoSep p
  | p :: q :: rest => Clean p ∧ GoodPieces (q :: rest)

theorem joinSep_cons_cons (p q : List Char) (rest : List (List Char)) :
    joinSep (p :: q :: rest) = p ++ SEP ++ joinSep (q :: rest) := rfl

theorem clean_noSep {p : List Char} (h : Clean p) : NoSep p := by
  intro i hpre
  by_cases hi : i < p.length
  · refine h i hi ?_
    obtain ⟨t, ht⟩ := hpre
    refine ⟨t ++ SEP, ?_⟩
    have hdrop : (p ++ SEP).drop i = p.drop i ++ SEP := by
      rw [List.drop_append_eq_append_drop]
      have : i - p.length = 0 := by omega
      rw [this, List.drop_zero]
    rw [hdrop, ← ht, List.append_assoc]
  · have hnil : p.drop i = [] := List.drop_eq_nil_of_le (by omega)
    rw [hnil] at hpre
    have := hpre.length_le
    simp [SEP] at this

theorem goodPieces_tail {p : List Char} {ps : List (List Char)}
    (h : GoodPieces (p :: ps)) : GoodPieces ps := by
  cases ps with
  | nil => trivial
  | cons q qs => exact h.2

theorem sep_prefix_iff (c : Char) (cs : List Char) :
    SEP <+: (c :: cs) ↔ c :: cs = SEP ++ cs.drop 4 := by
  constructor
  · rintro ⟨t, ht⟩
    have hdrop := congrArg (List.drop 5) ht
    have hlt : (SEP ++ t).drop 5 = t := by
      have h5 : SEP.length = 5 := rfl
      rw [← h5, List.drop_left]
    rw [hlt] at hdrop
    have hdc : (c :: cs).drop 5 = cs.drop 4 := rfl
    rw [hdc] at hdrop
    rw [← ht, hdrop]
  · intro h
    exact ⟨cs.drop 4, h.symm⟩

theorem joinSep_splitSep_aux :
    ∀ n : Nat, ∀ xs : List Char, xs.length ≤ n → joinSep (splitSep xs) = xs := by
  intro n
  induction n with
  | zero =>
    intro xs h
    have hx : xs = [] := List.eq_nil_of_length_eq_zero (by omega)
    subst hx
    rw [splitSep_nil]
    rfl
  | succ n ih =>
    intro xs h
    cases xs with
    | nil => rw [splitSep_nil]; rfl
    | cons c cs =>
      by_cases hp : SEP <+: (c :: cs)
      · rw [splitSep_cons_pos hp]
        obtain ⟨q, qs, hqs⟩ : ∃ q qs, splitSep (cs.drop 4) = q :: qs := by
          cases hcase : splitSep (cs.drop 4) with
          | nil => exact absurd hcase (splitSep_ne_nil _)
          | cons q qs => exact ⟨q, qs, rfl⟩
        have hrec : joinSep (splitSep (cs.drop 4)) = cs.drop 4 := by
          refine ih (cs.drop 4) ?_
          simp only [List.length_drop, List.length_cons] at h ⊢
          omega
        rw [hqs] at hrec
        rw [hqs, joinSep_cons_cons, hrec]
        have := (sep_prefix_iff c cs).1 hp
        simpa using this.symm
      · rw [splitSep_cons_neg hp]
        cases hcase : splitSep cs with
        | nil => exact absurd hcase (splitSep_ne_nil cs)
        | cons p ps =>
          have hrec : joinSep (p :: ps) = cs := by
            rw [← hcase]
            refine ih cs ?_
            simp only [List.length_cons] at h
            omega
          cases ps with
          | nil =>
            show c :: p = c :: cs
            have : p = cs := hrec
            rw [this]
          | cons r rs =>
            rw [joinSep_cons_cons] at hrec
            rw [joinSep_cons_cons, List.cons_append, List.cons_append]
            rw [← List.cons_append, ← List.cons_append]
            show c :: (p ++ SEP ++ joinSep (r :: rs)) = c :: cs
            rw [hrec]

theorem joinSep_splitSep (xs : List Char) : joinSep (splitSep xs) = xs :=
  joinSep_splitSep_aux xs.length xs le_rfl

theorem noSep_nil : NoSep [] := by
  intro i hpre
  rw [List.drop_nil] at hpre
  have := hpre.length_le
  simp [SEP] at this

theorem noSep_cons {c : Char} {p : List Char} (h0 : ¬ SEP <+: (c :: p))
    (h : NoSep p) : NoSep (c :: p) := by
  intro i hpre
  cases i with
  | zero => exact h0 (by simpa using hpre)
  | succ i =>
    rw [List.drop_succ_cons] at hpre
    exact h i hpre

theorem goodPieces_splitSep_aux :
    ∀ n : Nat, ∀ xs : List Char, xs.length ≤ n → GoodPieces (splitSep xs) := by
  intro n
  induction n with
  | zero =>
    intro xs h
    have hx : xs = [] := List.eq_nil_of_length_eq_zero (by omega)
    subst hx
    rw [splitSep_nil]
    exact noSep_nil
  | succ n ih =>
    intro xs h
    cases xs with
    | nil => rw [splitSep_nil]; exact noSep_nil
    | cons c cs =>
      by_cases hp : SEP <+: (c :: cs)
      · rw [splitSep_cons_pos hp]
        obtain ⟨q, qs, hqs⟩ : ∃ q qs, splitSep (cs.drop 4) = q :: qs := by
          cases hcase : splitSep (cs.drop 4) with
          | nil => exact absurd hcase (splitSep_ne_nil _)
          | cons q qs => exact ⟨q, qs, rfl⟩
        have hrec : GoodPieces (splitSep (cs.drop 4)) := by
          refine ih (cs.drop 4) ?_
          simp only [List.length_drop, List.length_cons] at h ⊢
          omega
        rw [hqs] at hrec
        rw [hqs]
        exact ⟨fun i hi => absurd hi (by simp), hrec⟩
      · rw [splitSep_cons_neg hp]
        cases hcase : splitSep cs with
        | nil => exact absurd hcase (splitSep_ne_nil cs)
        | cons p ps =>
          have hlen : cs.length ≤ n := by
            simp only [List.length_cons] at h
            omega
          have hrec : GoodPieces (p :: ps) := by
            rw [← hcase]; exact ih cs hlen
          have hcs : joinSep (p :: ps) = cs := by
            rw [← hcase]; exact joinSep_splitSep cs
          cases ps with
          | nil =>
            have hpcs : p = cs := hcs
            show NoSep (c :: p)
            refine noSep_cons ?_ hrec
            rw [hpcs]
            exact hp
          | cons r rs =>
            refine ⟨?_, hrec.2⟩
            have hclean : Clean p := hrec.1
            intro i hi hpre
            cases i with
            | zero =>
              rw [List.drop_zero] at hpre
              obtain ⟨t, ht⟩ := hpre
              refine hp ?_
              have hcs2 : c :: cs = ((c :: p) ++ SEP) ++ joinSep (r :: rs) := by
                rw [joinSep_cons_cons] at hcs
                rw [← hcs]
                simp [List.append_assoc]
              rw [hcs2]
              exact ⟨t ++ joinSep (r :: rs), by rw [← List.append_assoc, ht]⟩
            | succ i =>
              rw [List.cons_append, List.drop_succ_cons] at hpre
              simp only [List.length_cons] at hi
              exact hclean i (by omega) hpre

theorem goodPieces_splitSep (xs : List Char) : GoodPieces (splitSep xs) :=
  goodPieces_splitSep_aux xs.length xs le_rfl

theorem prefix_of_prefix_append {l a b : List Char} (h : l <+: a ++ b)
    (hlen : l.length ≤ a.length) : l <+: a := by
  obtain ⟨t, ht⟩ := h
  have htake := congrArg (List.take l.length) ht
  rw [List.take_append_eq_append_take, List.take_append_eq_append_take,
    Nat.sub_self, List.take_zero, List.append_nil, List.take_length] at htake
  have h1 : l.length - a.length = 0 := by omega
  rw [h1, List.take_zero, List.append_nil] at htake
  rw [htake]
  exact List.take_prefix _ _

theorem noSep_tail {c : Char} {p : List Char} (h : NoSep (c :: p)) : NoSep p := by
  intro i hpre
  exact h (i + 1) (by rwa [List.drop_succ_cons])

theorem clean_tail {c : Char} {p : List Char} (h : Clean (c :: p)) : Clean p := by
  intro i hi hpre
  refine h (i + 1) (by simp; omega) ?_
  rwa [List.cons_append, List.drop_succ_cons]

theorem splitSep_noSep {p : List Char} (h : NoSep p) : splitSep p = [p] := by
  induction p with
  | nil => exact splitSep_nil
  | cons c p ih =>
    have h0 : ¬ SEP <+: (c :: p) := by
      have := h 0
      rwa [List.drop_zero] at this
    rw [splitSep_cons_neg h0, ih (noSep_tail h)]

theorem splitSep_clean_append {p : List Char} (h : Clean p) (t : List Char) :
    splitSep (p ++ SEP ++ t) = p :: splitSep t := by
  induction p with
  | nil =>
    simp only [List.nil_append]
    show splitSep ('\n' :: (['-', '-', '-', '\n'] ++ t)) = [] :: splitSep t
    have hpre : SEP <+: ('\n' :: (['-', '-', '-', '\n'] ++ t)) := ⟨t, rfl⟩
    rw [splitSep_cons_pos hpre]
    rfl
  | cons c p ih =>
    have hi0 : ¬ SEP <+: ((c :: p) ++ SEP ++ t) := by
      intro hpre
      have hlen5 : SEP.length ≤ ((c :: p) ++ SEP).length := by
        simp [SEP]
      have hpA : SEP <+: (c :: p) ++ SEP := prefix_of_prefix_append hpre hlen5
      have hcl := h 0 (by simp)
      rw [List.drop_zero] at hcl
      exact hcl hpA
    have hstep : (c :: p) ++ SEP ++ t = c :: (p ++ SEP ++ t) := by
      simp
    rw [hstep] at hi0 ⊢
    rw [splitSep_cons_neg hi0, ih (clean_tail h)]

theorem splitSep_joinSep {l : List (List Char)} (hg : GoodPieces l) (hne : l ≠ []) :
    splitSep (joinSep l) = l := by
  induction l with
  | nil => exact absurd rfl hne
  | cons p ps ih =>
    cases ps with
    | nil =>
      show splitSep (joinSep [p]) = [p]
      exact splitSep_noSep hg
    | cons q rest =>
      rw [joinSep_cons_cons, splitSep_clean_append hg.1, ih hg.2 (by simp)]

theorem goodPieces_head_noSep {p : List Char} {ps : List (List Char)}
    (h : GoodPieces (p :: ps)) : NoSep p := by
  cases ps with
  | nil => exact h
  | cons q qs => exact clean_noSep h.1

theorem goodPieces_sublist :
    ∀ {l1 l2 : List (List Char)}, List.Sublist l1 l2 → GoodPieces l2 → GoodPieces l1 := by
  intro l1 l2 hsub
  induction hsub with
  | slnil => intro _; trivial
  | cons a hsub ih => intro h2; exact ih (goodPieces_tail h2)
  | cons₂ a hsub ih =>
    intro h2
    rename_i l1' l2'
    cases hl1 : l1' with
    | nil =>
      show GoodPieces [a]
      exact goodPieces_head_noSep h2
    | cons b bs =>
      have hl2 : l2' ≠ [] := by
        intro hnil
        rw [hl1, hnil] at hsub
        cases hsub
      obtain ⟨c2, cs2, hc2⟩ : ∃ c2 cs2, l2' = c2 :: cs2 := by
        cases l2' with
        | nil => exact absurd rfl hl2
        | cons c2 cs2 => exact ⟨c2, cs2, rfl⟩
      rw [hc2] at h2
      refine ⟨h2.1, ?_⟩
      rw [← hl1]
      refine ih ?_
      rw [hc2]
      exact goodPieces_tail h2

theorem dedupPieces_sublist (seen : List (List Char)) :
    ∀ l : List (List Char), List.Sublist (dedupPieces seen l) l := by
  intro l
  induction l generalizing seen with
  | nil => exact List.Sublist.slnil
  | cons s rest ih =>
    rw [dedupPieces]
    by_cases h : strip s ∈ seen ∨ strip s = []
    · rw [if_pos h]
      exact List.Sublist.cons s (ih seen)
    · rw [if_neg h]
      exact List.Sublist.cons₂ s (ih (strip s :: seen))

theorem dedupPieces_mem {seen : List (List Char)} {l : List (List Char)} :
    ∀ p ∈ dedupPieces seen l, strip p ∉ seen ∧ strip p ≠ [] := by
  induction l generalizing seen with
  | nil => intro p hp; cases hp
  | cons s rest ih =>
    intro p hp
    rw [dedupPieces] at hp
    by_cases h : strip s ∈ seen ∨ strip s = []
    · rw [if_pos h] at hp
      exact ih p hp
    · rw [if_neg h] at hp
      push_neg at h
      rcases List.mem_cons.1 hp with hps | hptail
      · subst hps
        exact h
      · have := ih p hptail
        exact ⟨fun hmem => this.1 (List.mem_cons_of_mem _ hmem), this.2⟩

theorem dedupPieces_pairwise {seen : List (List Char)} :
    ∀ l : List (List Char),
      (dedupPieces seen l).Pairwise (fun a b => strip a ≠ strip b) := by
  intro l
  induction l generalizing seen with
  | nil => exact List.Pairwise.nil
  | cons s rest ih =>
    rw [dedupPieces]
    by_cases h : strip s ∈ seen ∨ strip s = []
    · rw [if_pos h]
      exact ih
    · rw [if_neg h]
      refine List.Pairwise.cons ?_ ih
      intro p hp hstrip
      have := (dedupPieces_mem p hp).1
      exact this (hstrip ▸ List.mem_cons_self _ _)

theorem dedupPieces_fixed {seen : List (List Char)} :
    ∀ l : List (List Char),
      (∀ p ∈ l, strip p ∉ seen ∧ strip p ≠ []) →
      l.Pairwise (fun a b => strip a ≠ strip b) →
      dedupPieces seen l = l := by
  intro l
  induction l generalizing seen with
  | nil => intro _ _; rfl
  | cons s rest ih =>
    intro hmem hpw
    have hs := hmem s (List.mem_cons_self _ _)
    rw [dedupPieces, if_neg (by push_neg; exact hs)]
    congr 1
    refine ih ?_ (List.Pairwise.sublist (List.sublist_cons_self s rest) hpw)
    intro p hp
    have hp2 := hmem p (List.mem_cons_of_mem s hp)
    refine ⟨?_, hp2.2⟩
    intro hmem2
    rcases List.mem_cons.1 hmem2 with heq | htail
    · exact (List.rel_of_pairwise_cons hpw hp) heq.symm
    · exact hp2.1 htail

theorem strip_nil : strip [] = [] := rfl

/-- C10: `deduplicate_content` is idempotent: it keeps only the first
occurrence of each distinct `'\n---\n'`-separated section (sections
compared by their stripped text), drops whitespace-only sections, and
applying it twice yields the same string as applying it once; the kept
sections of any input indeed have pairwise-distinct, nonempty stripped
texts. -/
theorem deduplicate_content_idempotent :
    (∀ content : List Char,
      deduplicate_content (deduplicate_content content) = deduplicate_content content) ∧
    (∀ content : List Char,
      (dedupPieces [] (splitSep content)).Pairwise (fun a b => strip a ≠ strip b)) ∧
    (∀ content : List Char, ∀ p ∈ dedupPieces [] (splitSep content), strip p ≠ []) := by
  refine ⟨?_, fun content => dedupPieces_pairwise (splitSep content),
    fun content p hp => (dedupPieces_mem p hp).2⟩
  intro content
  by_cases hc : content = []
  · rw [hc]
    rfl
  · have hdd : deduplicate_content content = joinSep (dedupPieces [] (splitSep content)) := by
      rw [deduplicate_content, if_neg hc]
    by_cases hk : dedupPieces [] (splitSep content) = []
    · have hout : deduplicate_content content = [] := by
        rw [hdd, hk]
        rfl
      rw [hout]
      rfl
    · obtain ⟨p, ps, hps⟩ : ∃ p ps, dedupPieces [] (splitSep content) = p :: ps := by
        cases hcase : dedupPieces [] (splitSep content) with
        | nil => exact absurd hcase hk
        | cons p ps => exact ⟨p, ps, rfl⟩
      have hpne : p ≠ [] := by
        have hstr : strip p ≠ [] :=
          (dedupPieces_mem p (by rw [hps]; exact List.mem_cons_self p ps)).2
        intro hnil
        rw [hnil, strip_nil] at hstr
        exact hstr rfl
      have hout_ne : joinSep (dedupPieces [] (splitSep content)) ≠ [] := by
        rw [hps]
        cases ps with
        | nil => exact hpne
        | cons q rest =>
          rw [joinSep_cons_cons]
          intro hnil
          rw [List.append_eq_nil, List.append_eq_nil] at hnil
          exact hpne hnil.1.1
      have hgood : GoodPieces (dedupPieces [] (splitSep content)) :=
        goodPieces_sublist (dedupPieces_sublist [] (splitSep content))
          (goodPieces_splitSep content)
      have hsplit_out : splitSep (joinSep (dedupPieces [] (splitSep content))) =
          dedupPieces [] (splitSep content) :=
        splitSep_joinSep hgood hk
      have hfixed : dedupPieces [] (dedupPieces [] (splitSep content)) =
          dedupPieces [] (splitSep content) := by
        refine dedupPieces_fixed _ ?_ (dedupPieces_pairwise (splitSep content))
        intro q hq
        exact ⟨by simp, (dedupPieces_mem q hq).2⟩
      rw [hdd]
      rw [deduplicate_content, if_neg hout_ne, hsplit_out, hfixed]

/-- Witness for `deduplicate_content_idempotent`: the nonempty-stripped-
text guarantee applied to the single kept section of the content `a`. -/
theorem deduplicate_content_idempotent_witness : strip ['a'] ≠ [] := by
  have h1 : splitSep ['a'] = [['a']] := by
    rw [splitSep_cons_neg (by decide), splitSep_nil]
  have h2 : ['a'] ∈ dedupPieces [] (splitSep ['a']) := by
    rw [h1]
    decide
  exact deduplicate_content_idempotent.2.2 ['a'] ['a'] h2

/-! ## Diagram path emission and image display

Embedded from `display_message_with_images` in `src/app.py` (regex
patterns `/tmp/generated-diagrams/[\w\-\.]+\.png`,
`generated-diagrams/[\w\-\.]+\.png`, `./generated-diagrams/[\w\-\.]+\.png`;
if no path matches, the content is rendered as markdown only; otherwise
the content is split around the matches and each matched path is rendered
as an image when the file exists, or as a placeholder notice when it does
not, with nonempty stripped text segments rendered as markdown) and from
the DIAGRAM SECTION of `SYSTEM_PROMPT_TEMPLATE` ("Place on a new line
immediately after generation: Diagram: /tmp/generated-diagrams/[filename].png",
"This MUST appear BEFORE the architecture description", "Without this
path, the diagram will NOT display in the UI").

The regex word class `[\w\-\.]` is modelled over ASCII; the filesystem is
modelled as the list of existing file paths; the scanner carries a fuel
argument so that it is structurally recursive — called with
`fuel = content.length`, the fuel never runs out before the content does,
since every step consumes at least one character. -/

/-- A character of the regex class `[\w\-\.]`. -/
def pathChar (c : Char) : Bool :=
  c.isAlphanum || c = '_' || c = '-' || c = '.'

/-- The literal `.png` suffix. -/
def PNG_SUFFIX : List Char := ['.', 'p', 'n', 'g']

/-- Greedy match length of `[\w\-\.]+\.png` against the class run `run`:
the largest `m ≥ 5` such that the first `m` characters of `run` end in
`.png` (regex greediness with backtracking). -/
def bestPngLen (run : List Char) : Option Nat :=
  (List.range (run.length + 1)).reverse.find?
    (fun m => decide (5 ≤ m) && decide ((run.take m).drop (m - 4) = PNG_SUFFIX))

/-- Try one pattern anchored at the start of `cs`: its literal directory
prefix followed by a greedy `[\w\-\.]+\.png` tail; returns the matched
path and the remaining input. -/
def tryPat (pat cs : List Char) : Option (List Char × List Char) :=
  if pat <+: cs then
    match bestPngLen ((cs.drop pat.length).takeWhile pathChar) with
    | some m => some (pat ++ (cs.drop pat.length).take m, (cs.drop pat.length).drop m)
    | none => none
  else none

/-- Try the three patterns in the alternation order of the source. -/
def tryMatchPath (cs : List Char) : Option (List Char × List Char) :=
  match tryPat "/tmp/generated-diagrams/".data cs with
  | some r => some r
  | none =>
    match tryPat "generated-diagrams/".data cs with
    | some r => some r
    | none => tryPat "./generated-diagrams/".data cs

/-- A segment of the split content: plain text or a matched image path. -/
inductive Seg where
  | text (s : List Char)
  | path (p : List Char)
deriving DecidableEq, Repr

/-- Leftmost non-overlapping scan producing the split segments, fuelled
for structural recursion. -/
def scanSegs : Nat → List Char → List Char → List Seg
  | _, acc, [] => [Seg.text acc.reverse]
  | 0, acc, cs => [Seg.text (acc.reverse ++ cs)]
  | fuel + 1, acc, c :: cs =>
    match tryMatchPath (c :: cs) with
    | some (p, rest) => Seg.text acc.reverse :: Seg.path p :: scanSegs fuel [] rest
    | none => scanSegs fuel (c :: acc) cs

/-- Split the content around the diagram-path matches. -/
def scanContent (cs : List Char) : List Seg := scanSegs cs.length [] cs

/-- The path carried by a segment, if any. -/
def segPath : Seg → Option (List Char)
  | Seg.path p => some p
  | Seg.text _ => none

/-- All diagram paths found in the content (the `image_paths` check of the
source). -/
def diagramPaths (content : List Char) : List (List Char) :=
  (scanContent content).filterMap segPath

/-- How the UI renders one piece of a message. -/
inductive RenderAction where
  | markdown (s : List Char)
  | image (p : List Char)
  | missingImageInfo (p : List Char)
deriving DecidableEq, Repr

/-- Rendering of one segment: a path becomes the image when the file
exists (else the placeholder notice); a text segment is rendered as
markdown when its stripped text is nonempty. -/
def renderSeg (fs : List (List Char)) : Seg → Option RenderAction
  | Seg.path p =>
    if p ∈ fs then some (RenderAction.image p)
    else some (RenderAction.missingImageInfo p)
  | Seg.text t =>
    if strip t = [] then none else some (RenderAction.markdown (strip t))

/-- `display_message_with_images` of `src/app.py` over the filesystem
`fs`. -/
def display_message_with_images (fs : List (List Char)) (content : List Char) :
    List RenderAction :=
  if diagramPaths content = [] then [RenderAction.markdown content]
  else (scanContent content).filterMap (renderSeg fs)

/-- The diagram-response format mandated by the DIAGRAM SECTION: the
acknowledgment line, a blank line, the literal `Diagram: <path>` line on
its own, a blank line, then the descriptive prose. -/
def diagram_response (ack path : String) (description : List String) : List String :=
  [ack, "", "Diagram: " ++ path, ""] ++ description

/-- C8: in every modelled diagram response the literal path line sits at a
fixed line index strictly before every line of descriptive prose; a
response without any matching path renders as markdown only (never as an
image); and when the rendered artifacts exist on disk, the UI displays an
image if and only if a diagram path is embedded in the response text. -/
theorem diagram_path_display_iff :
    (∀ (ack path : String) (description : List String),
      (diagram_response ack path description)[2]? = some ("Diagram: " ++ path) ∧
      ∀ i : Nat, (diagram_response ack path description)[4 + i]? = description[i]?) ∧
    (∀ (fs : List (List Char)) (content : List Char), diagramPaths content = [] →
      display_message_with_images fs content = [RenderAction.markdown content] ∧
      ∀ p, RenderAction.image p ∉ display_message_with_images fs content) ∧
    (∀ (fs : List (List Char)) (content : List Char),
      (∀ p ∈ diagramPaths content, p ∈ fs) →
      ((∃ p, RenderAction.image p ∈ display_message_with_images fs content) ↔
        diagramPaths content ≠ [])) := by
  refine ⟨fun ack path description => ⟨rfl, fun i => ?_⟩, fun fs content hnil => ⟨?_, ?_⟩,
    fun fs content hfs => ⟨?_, ?_⟩⟩
  · show ([ack, "", "Diagram: " ++ path, ""] ++ description)[4 + i]? = description[i]?
    rw [List.getElem?_append_right (by simp)]
    congr 1
    simp
  · rw [display_message_with_images, if_pos hnil]
  · intro p hp
    rw [display_message_with_images, if_pos hnil] at hp
    rcases List.mem_singleton.1 hp with h
    cases h
  · rintro ⟨p, hp⟩ hnil
    rw [display_message_with_images, if_pos hnil] at hp
    rcases List.mem_singleton.1 hp with h
    cases h
  · intro hne
    obtain ⟨p0, ps0, hps0⟩ : ∃ p0 ps0, diagramPaths content = p0 :: ps0 := by
      cases hcase : diagramPaths content with
      | nil => exact absurd hcase hne
      | cons p0 ps0 => exact ⟨p0, ps0, rfl⟩
    have hp0 : p0 ∈ diagramPaths content := by
      rw [hps0]
      exact List.mem_cons_self _ _
    obtain ⟨seg, hseg, hsegp⟩ := List.mem_filterMap.1 hp0
    have hsegeq : seg = Seg.path p0 := by
      cases seg with
      | text t => cases hsegp
      | path q =>
        rw [segPath] at hsegp
        cases hsegp
        rfl
    refine ⟨p0, ?_⟩
    rw [display_message_with_images, if_neg hne]
    refine List.mem_filterMap.2 ⟨seg, hseg, ?_⟩
    rw [hsegeq, renderSeg, if_pos (hfs p0 hp0)]

/-- Witness for `diagram_path_display_iff`: a concrete diagram response
whose path exists on disk displays an image, and concrete pathless
content renders as markdown only. -/
theorem diagram_path_display_iff_witness :
    (∃ p, RenderAction.image p ∈
      display_message_with_images ["/tmp/generated-diagrams/arch_1.png".data]
        "Diagram: /tmp/generated-diagrams/arch_1.png\n\nOverview".data) ∧
    display_message_with_images [] "No diagram here".data =
      [RenderAction.markdown "No diagram here".data] :=
  ⟨(diagram_path_display_iff.2.2 ["/tmp/generated-diagrams/arch_1.png".data]
      "Diagram: /tmp/generated-diagrams/arch_1.png\n\nOverview".data (by decide)).2
      (by decide),
   (diagram_path_display_iff.2.1 [] "No diagram here".data (by decide)).1⟩
